import Mathlib

/-!
Shallow embedding of `dev/_changelog.py` (pyRevit changelog tool).

Strings are modelled as `List Char`.  The Python regular expressions used by
the tool are small enough that each one is translated into an explicit
backtracking-faithful scanning function; comments next to each definition
record the regex and the semantics being mirrored (greedy/lazy groups,
`.` not matching a newline, `re.match` anchoring at the start only).
Character classes are modelled over ASCII, which covers every string the
tool manipulates.
-/

set_option autoImplicit false

/-- ASCII decimal digit, the model of the regex class `\d`. -/
def isDigit (c : Char) : Bool := '0' ≤ c && c ≤ '9'

/-- ASCII whitespace, the model of the regex class `\s`. -/
def isSpace (c : Char) : Bool :=
  c == ' ' || c == '\t' || c == '\n' || c == '\r' || c == '\x0b' || c == '\x0c'

/-- Python `text.split("\n")`: split on every newline, keeping empty pieces;
the empty string yields one empty piece. -/
def splitLines : List Char → List (List Char)
  | [] => [[]]
  | '\n' :: rest => [] :: splitLines rest
  | c :: rest =>
    match splitLines rest with
    | l :: ls => (c :: l) :: ls
    | [] => [[c]]

/-- Python `needle in hay` on strings: contiguous substring test. -/
def containsSub (needle : List Char) : List Char → Bool
  | [] => needle.isEmpty
  | c :: rest => needle.isPrefixOf (c :: rest) || containsSub needle rest

/-- One attempt of `#(\d+)` at the head of the text: if the text starts with
`#` followed by at least one digit, capture the maximal digit run. -/
def tokenCapture : List Char → Option (List Char)
  | '#' :: d :: rest =>
    if isDigit d then some ((d :: rest).takeWhile isDigit) else none
  | _ => none

/-- Backtracking scan of `re.match(r".*#(\d+).*", msg)` over one line: the
greedy leading `.*` makes the rightmost `#`-followed-by-digit win, so the
scan prefers a match found in the tail of the list. -/
def ticketGo : List Char → Option (List Char)
  | [] => none
  | c :: rest =>
    match ticketGo rest with
    | some t => some t
    | none => tokenCapture (c :: rest)

/-- Embedding of `Change.find_ticket` (`_changelog.py` lines 76-81):
`re.match(r".*#(\d+).*", message)`, returning the captured digits.  Since
`.` does not match a newline and the pattern is anchored at the start, only
the first line of the message can participate. -/
def find_ticket (message : List Char) : Option (List Char) :=
  ticketGo (message.takeWhile (fun c => c != '\n'))

/-- Specification-level description of ticket extraction: list the captures
of every `#<digits>` token of the first line, leftmost first, and keep the
last one (the rightmost token). -/
def ticketRightmost (message : List Char) : Option (List Char) :=
  (((message.takeWhile (fun c => c != '\n')).tails).filterMap tokenCapture).getLast?

/-- The reading the claim gives of ticket extraction: the digits of the leftmost
`#<digits>` token of the subject. -/
def ticketLeftmost (message : List Char) : Option (List Char) :=
  (((message.takeWhile (fun c => c != '\n')).tails).filterMap tokenCapture).head?

/-- Backtracking model of `\s+(.+)` at the head of a newline-free line: the
greedy `\s+` takes the maximal whitespace run, giving one character back when
nothing is left for `(.+)`. -/
def spaceThenCapture (r : List Char) : Option (List Char) :=
  let n := (r.takeWhile isSpace).length
  if n = 0 then none
  else if n < r.length then some (r.drop n)
  else if 2 ≤ n then some (r.drop (n - 1))
  else none

/-- One attempt of `\-\s*\[\s*\]\s+(.+)` at the head of a newline-free line.
`\s*` followed by a non-whitespace literal needs no backtracking: it is
"skip the maximal whitespace run, then require the literal". -/
def todoAt : List Char → Option (List Char)
  | '-' :: rest =>
    match rest.dropWhile isSpace with
    | '[' :: r2 =>
      match r2.dropWhile isSpace with
      | ']' :: r4 => spaceThenCapture r4
      | _ => none
    | _ => none
  | _ => none

/-- Embedding of `re.search` of the todo pattern in one line: leftmost position wins. -/
def searchTodo : List Char → Option (List Char)
  | [] => none
  | c :: rest =>
    match todoAt (c :: rest) with
    | some r => some r
    | none => searchTodo rest

/-- Embedding of `Change.find_todos` (`_changelog.py` lines 83-90): one search per line of
`comments.split("\n")`, collecting the captures in order. -/
def find_todos (comments : List Char) : List (List Char) :=
  (splitLines comments).filterMap searchTodo

/-- Embedding of `github.LabelInfo`: a label of the issue tracker (name and free-text
description). -/
structure LabelInfo where
  name : List Char
  description : List Char
deriving DecidableEq

/-- Ticket metadata returned by the issue tracker. -/
structure TicketData where
  title : List Char
  url : List Char
  labels : List LabelInfo
deriving DecidableEq

/-- Embedding of `ChangeAspect.DefaultPattern` (`_changelog.py` line 21). -/
def DefaultPattern : List Char := ("- Resolved {ticket}: {title}").toList

/-- The state of a constructed `ChangeAspect`: label name, parsed aspect type
and message pattern. -/
structure ChangeAspect where
  name : List Char
  aspectType : Option (List Char)
  pattern : List Char
deriving DecidableEq

/-- Model of `(.+?)\]` after `->`: a lazy nonempty capture followed by a
literal `]`, so the capture runs to the first `]` at index at least one;
`.` cannot cross a newline. -/
def upToRBracket : List Char → Option (List Char)
  | [] => none
  | ']' :: _ => some []
  | '\n' :: _ => none
  | c :: rest => (upToRBracket rest).map (fun u => c :: u)

/-- Model of `(->(.+?))?\]` succeeding with the arrow branch: the text after
`->` up to the first later `]`, nonempty. -/
def afterArrow : List Char → Option (List Char)
  | [] => none
  | '\n' :: _ => none
  | c :: rest => (upToRBracket rest).map (fun u => c :: u)

/-- The lazy group `(.+?)(->(.+?))?\]` after an opening `[`.  The
accumulated tag is kept reversed.  At each boundary the optional group is
tried first (`->` plus a capture up to `]`), then the empty alternative
(a literal `]`); otherwise one more character joins the tag.  When `->`
matches but no `]` follows, backtracking pushes `-` and `>` into the tag. -/
def group1Loop (tagRev : List Char) : List Char → Option (List Char × Option (List Char))
  | [] => none
  | '-' :: '>' :: rest =>
    match afterArrow rest with
    | some custom => some (tagRev.reverse, some custom)
    | none => group1Loop ('>' :: '-' :: tagRev) rest
  | ']' :: _ => some (tagRev.reverse, none)
  | '\n' :: _ => none
  | c :: rest => group1Loop (c :: tagRev) rest

/-- Entry to the lazy group: `(.+?)` consumes one character before the first
boundary check. -/
def scanTag : List Char → Option (List Char × Option (List Char))
  | [] => none
  | '\n' :: _ => none
  | c :: rest => group1Loop [c] rest

/-- The greedy leading `.*` of the aspect regex: try the `[` positions from
the rightmost one, falling leftwards while the tail fails. -/
def scanBrackets : List Char → Option (List Char × Option (List Char))
  | [] => none
  | c :: rest =>
    match scanBrackets rest with
    | some r => some r
    | none => if c = '[' then scanTag rest else none

/-- Embedding of `re.match(r".*\[(.+?)(->(.+?))?\].*", description)` (`_changelog.py`
line 27), reduced to its two captures of interest: the aspect tag and the
optional custom pattern.  The whole bracketed region sits inside the first
line because `.` cannot match a newline. -/
def findDirective (description : List Char) : Option (List Char × Option (List Char)) :=
  scanBrackets (description.takeWhile (fun c => c != '\n'))

/-- Embedding of `ChangeAspect.__init__` (`_changelog.py` lines 23-30). -/
def ChangeAspect.ofLabel (label : LabelInfo) : ChangeAspect :=
  match findDirective label.description with
  | some (tag, some custom) =>
    { name := label.name, aspectType := some tag, pattern := '-' :: ' ' :: custom }
  | some (tag, none) =>
    { name := label.name, aspectType := some tag, pattern := DefaultPattern }
  | none =>
    { name := label.name, aspectType := none, pattern := DefaultPattern }

/-- The state of a constructed `Change` (`_changelog.py` lines 52-61). -/
structure Change where
  commitHash : List Char
  commitTicket : Option (List Char)
  commitTodos : List (List Char)
  ticketdata : Option TicketData
deriving DecidableEq

/-- Embedding of `Change.__init__`: the ticket metadata is fetched (modelled by the
function argument `getTicket`) exactly when fetching is enabled and the
found ticket string is truthy. -/
def mkChange (fetchInfo : Bool) (getTicket : List Char → TicketData)
    (commitHash message comments : List Char) : Change :=
  let t := find_ticket message
  { commitHash := commitHash
    commitTicket := t
    commitTodos := find_todos comments
    ticketdata :=
      if fetchInfo then
        match t with
        | some tk => if tk.isEmpty then none else some (getTicket tk)
        | none => none
      else none }

/-- Embedding of `Change.ticket` (`_changelog.py` lines 102-105): the f-string
`f"#{self._commit_ticket}"`; Python renders `None` as the text `None`. -/
def Change.ticket (c : Change) : List Char :=
  '#' :: (match c.commitTicket with
          | some t => t
          | none => ("None").toList)

/-- Embedding of `Change.url` (`_changelog.py` lines 107-112). -/
def Change.url (c : Change) : List Char :=
  match c.ticketdata with
  | some d => d.url
  | none => []

/-- Embedding of `Change.title` (`_changelog.py` lines 114-119). -/
def Change.title (c : Change) : List Char :=
  match c.ticketdata with
  | some d => d.title
  | none => []

/-- Embedding of `Change.subsystems` (`_changelog.py` lines 121-130). -/
def Change.subsystems (c : Change) : List ChangeAspect :=
  match c.ticketdata with
  | some d =>
    (d.labels.filter (fun l => containsSub (("[subsystem").toList) l.description)).map
      ChangeAspect.ofLabel
  | none => []

/-- Embedding of `Change.classes` (`_changelog.py` lines 132-141). -/
def Change.classes (c : Change) : List ChangeAspect :=
  match c.ticketdata with
  | some d =>
    (d.labels.filter (fun l => containsSub (("[class").toList) l.description)).map
      ChangeAspect.ofLabel
  | none => []

/-- Embedding of `Change.is_highlighted` (`_changelog.py` lines 143-148). -/
def Change.highlighted (c : Change) : Bool :=
  match c.ticketdata with
  | some d => d.labels.any (fun l => l.name == ("Highlight").toList)
  | none => false

/-- Embedding of `Change.is_priority` (`_changelog.py` lines 150-155). -/
def Change.priority (c : Change) : Bool :=
  match c.ticketdata with
  | some d => d.labels.any (fun l => l.name == ("Prioritize").toList)
  | none => false

/-- Embedding of `str.format` restricted to the three replacement fields the tool uses
(`{ticket}`, `{url}`, `{title}`); every pattern the tool formats contains
only these fields and literal text. -/
def formatMsg (t u ti : List Char) : List Char → List Char
  | '{' :: 't' :: 'i' :: 'c' :: 'k' :: 'e' :: 't' :: '}' :: rest => t ++ formatMsg t u ti rest
  | '{' :: 't' :: 'i' :: 't' :: 'l' :: 'e' :: '}' :: rest => ti ++ formatMsg t u ti rest
  | '{' :: 'u' :: 'r' :: 'l' :: '}' :: rest => u ++ formatMsg t u ti rest
  | c :: rest => c :: formatMsg t u ti rest
  | [] => []

/-- Embedding of `Change.__str__` (`_changelog.py` lines 63-74). -/
def Change.render (c : Change) : List Char :=
  let message :=
    match Change.classes c with
    | a :: _ => if a.pattern.isEmpty then DefaultPattern else a.pattern
    | [] => DefaultPattern
  formatMsg (Change.ticket c) (Change.url c) (Change.title c) message

/-- A trivial stand-in for the issue-tracker client, used to instantiate the
constructors on concrete inputs where no metadata is wanted. -/
def fetch0 : List Char → TicketData := fun _ => { title := [], url := [], labels := [] }

/-- Python `cline.split(" ", 1)`: `some (before, after)` when the line holds
a space (two parts), `none` otherwise (one part, which the parser skips). -/
def splitFirstSpace (l : List Char) : Option (List Char × List Char) :=
  match l.dropWhile (fun c => c != ' ') with
  | [] => none
  | _ :: after => some (l.takeWhile (fun c => c != ' '), after)

/-- Python `cline.startswith("/")`. -/
def startsWithSlash : List Char → Bool
  | '/' :: _ => true
  | _ => false

/-- Control position of the imperative loop of `_find_changes`: either
scanning for a commit header, or accumulating the comment body of the
header already read. -/
inductive PMode where
  | scan : PMode
  | body : List Char → List Char → List Char → PMode

/-- Embedding of `_find_changes` (`_changelog.py` lines 158-194) over the split lines.
`scan` mirrors the outer `while`: a line that does not split into two parts
is skipped; after a header the next line is read unconditionally, which is
an index-out-of-range error (`Except.error ()`) when no line is left.
`body` mirrors the inner `while`: lines are concatenated (no separator)
until a line starting with `/` is consumed as the delimiter, or the input
ends. -/
def stepAll (mk : List Char → List Char → List Char → Change) :
    PMode → List (List Char) → Except Unit (List Change)
  | PMode.scan, [] => Except.ok []
  | PMode.scan, l :: rest =>
    match splitFirstSpace l with
    | none => stepAll mk PMode.scan rest
    | some (chash, cmsg) =>
      match rest with
      | [] => Except.error ()
      | _ :: _ => stepAll mk (PMode.body chash cmsg []) rest
  | PMode.body chash cmsg acc, [] => Except.ok [mk chash cmsg acc]
  | PMode.body chash cmsg acc, l :: rest =>
    if startsWithSlash l then
      Except.map (fun cs => mk chash cmsg acc :: cs) (stepAll mk PMode.scan rest)
    else
      match rest with
      | [] => Except.ok [mk chash cmsg (acc ++ l)]
      | _ :: _ => stepAll mk (PMode.body chash cmsg (acc ++ l)) rest

/-- Embedding of `_find_changes(gitlog_report, fetch_info)`. -/
def find_changes (fetchInfo : Bool) (getTicket : List Char → TicketData)
    (gitlogReport : List Char) : Except Unit (List Change) :=
  stepAll (mkChange fetchInfo getTicket) PMode.scan (splitLines gitlogReport)

/-- Modelled from the spec text of the parser, for comparison with the
code: identical to `stepAll` except that the comment body ends only at a
line exactly equal to `/`. -/
def stepAllExact (mk : List Char → List Char → List Char → Change) :
    PMode → List (List Char) → Except Unit (List Change)
  | PMode.scan, [] => Except.ok []
  | PMode.scan, l :: rest =>
    match splitFirstSpace l with
    | none => stepAllExact mk PMode.scan rest
    | some (chash, cmsg) =>
      match rest with
      | [] => Except.error ()
      | _ :: _ => stepAllExact mk (PMode.body chash cmsg []) rest
  | PMode.body chash cmsg acc, [] => Except.ok [mk chash cmsg acc]
  | PMode.body chash cmsg acc, l :: rest =>
    if l = ['/'] then
      Except.map (fun cs => mk chash cmsg acc :: cs) (stepAllExact mk PMode.scan rest)
    else
      match rest with
      | [] => Except.ok [mk chash cmsg (acc ++ l)]
      | _ :: _ => stepAllExact mk (PMode.body chash cmsg (acc ++ l)) rest

/-- The spec-worded parser applied to a report. -/
def find_changes_exact (fetchInfo : Bool) (getTicket : List Char → TicketData)
    (gitlogReport : List Char) : Except Unit (List Change) :=
  stepAllExact (mkChange fetchInfo getTicket) PMode.scan (splitLines gitlogReport)

/-- One insertion into the `defaultdict(list)` keyed by subsystem aspect
(`ChangeAspect.__eq__` and `__hash__` compare the label name, so the key is
the name): append to the existing group, or create a new group at the end,
matching dict insertion order. -/
def addToGroup : List (List Char × List Change) → List Char → Change →
    List (List Char × List Change)
  | [], n, c => [(n, [c])]
  | (k, cs) :: rest, n, c =>
    if k = n then (k, cs ++ [c]) :: rest
    else (k, cs) :: addToGroup rest n c

/-- The body of the grouping loop of `report_changelog` (`_changelog.py`
lines 233-240): skip the change when `not change.ticket` (the ticket string
is empty), otherwise add it under each of its subsystem aspects. -/
def groupStep (gs : List (List Char × List Change)) (c : Change) :
    List (List Char × List Change) :=
  if (Change.ticket c).isEmpty then gs
  else (Change.subsystems c).foldl (fun h a => addToGroup h a.name c) gs

/-- Embedding of `changes_by_subsystem` of `report_changelog`. -/
def changes_by_subsystem (changes : List Change) : List (List Char × List Change) :=
  changes.foldl groupStep []

/-- The changes printed in the Highlights section (`_changelog.py` lines
243-246). -/
def highlightChanges (changes : List Change) : List Change :=
  changes.filter (fun c => Change.highlighted c)

/-- The lines printed by the Changes section (`_changelog.py` lines
249-253): per group a level-3 header followed by the rendering of each
grouped change. -/
def changesSection (changes : List Change) : List (List Char) :=
  ((changes_by_subsystem changes).map
    (fun g => (("### ").toList ++ g.1) :: g.2.map Change.render)).flatten

/-- The printed list of the group headed by a given subsystem name. -/
def groupRenderOf (changes : List Change) (n : List Char) : List (List Char) :=
  (((changes_by_subsystem changes).filter (fun g => g.1 == n)).map
    (fun g => g.2.map Change.render)).flatten

/-- Python `build_version.replace("+", "%2B")` (`_changelog.py` line 263). -/
def plusEncode : List Char → List Char
  | [] => []
  | '+' :: rest => '%' :: '2' :: 'B' :: plusEncode rest
  | c :: rest => c :: plusEncode rest

/-- Embedding of `base_url` of `generate_release_notes` (`_changelog.py` lines 264-267). -/
def base_url (version : List Char) : List Char :=
  ("https://github.com/eirannejad/pyRevit/releases/download/v").toList
    ++ plusEncode version ++ ("/").toList

/-- Modelled from the spec: `scripts/configs.PYREVIT_INSTALLER_NAME` is not
under `src`; the spec states each installer artifact name is a fixed
template instantiated with the version. -/
def PYREVIT_INSTALLER_NAME (version : List Char) : List Char :=
  ("pyRevit_").toList ++ version

/-- Modelled from the spec: `scripts/configs.PYREVIT_ADMIN_INSTALLER_NAME`
is not under `src`; a fixed template instantiated with the version. -/
def PYREVIT_ADMIN_INSTALLER_NAME (version : List Char) : List Char :=
  ("pyRevit_admin_").toList ++ version

/-- Modelled from the spec: `scripts/configs.PYREVIT_CLI_INSTALLER_NAME` is
not under `src`; a fixed template instantiated with the version. -/
def PYREVIT_CLI_INSTALLER_NAME (version : List Char) : List Char :=
  ("pyRevit_CLI_").toList ++ version

/-- Modelled from the spec:
`scripts/configs.PYREVIT_CLI_ADMIN_INSTALLER_NAME` is not under `src`; a
fixed template instantiated with the version. -/
def PYREVIT_CLI_ADMIN_INSTALLER_NAME (version : List Char) : List Char :=
  ("pyRevit_CLI_admin_").toList ++ version

/-- URL of the first download bullet (`_changelog.py` lines 271-278): the
base URL uses the encoded version, the appended filename the raw one. -/
def pyrevit_installer_url (version : List Char) : List Char :=
  base_url version ++ PYREVIT_INSTALLER_NAME version ++ (".exe").toList

/-- URL of the second download bullet (`_changelog.py` lines 280-289). -/
def pyrevit_admin_installer_url (version : List Char) : List Char :=
  base_url version ++ PYREVIT_ADMIN_INSTALLER_NAME version ++ (".exe").toList

/-- URL of the third download bullet (`_changelog.py` lines 291-299). -/
def pyrevit_cli_installer_url (version : List Char) : List Char :=
  base_url version ++ PYREVIT_CLI_INSTALLER_NAME version ++ (".exe").toList

/-- URL of the fourth download bullet (`_changelog.py` lines 301-310). -/
def pyrevit_cli_admin_installer_url (version : List Char) : List Char :=
  base_url version ++ PYREVIT_CLI_ADMIN_INSTALLER_NAME version ++ (".exe").toList

deriving instance DecidableEq for Except

/-- A needle occurring contiguously inside a haystack. -/
def SubstringOf (needle hay : List Char) : Prop :=
  ∃ a b, hay = a ++ needle ++ b

theorem ticketGo_eq_getLast (l : List Char) :
    ticketGo l = (l.tails.filterMap tokenCapture).getLast? := by
  induction l with
  | nil => rfl
  | cons c rest ih =>
    rw [List.tails_cons, List.filterMap_cons]
    rcases hF : rest.tails.filterMap tokenCapture with _ | ⟨w, F⟩
    · rw [hF] at ih
      rcases hc : tokenCapture (c :: rest) with _ | v <;>
        simp [ticketGo, ih, hc]
    · rw [hF] at ih
      have hs : ((w :: F).getLast?).isSome := List.getLast?_isSome.mpr (by simp)
      rcases ho : (w :: F).getLast? with _ | t
      · rw [ho] at hs; simp at hs
      · rw [ho] at ih
        rcases hc : tokenCapture (c :: rest) with _ | v <;>
          simp [ticketGo, ih, hc, List.getLast?_cons_cons, ho]

/-- Claim C3 (amended): ticket extraction picks the rightmost `#<digits>` token
of the first line of the subject, capturing its maximal digit run; a subject
with no such token yields no ticket. -/
theorem find_ticket_eq_rightmost (message : List Char) :
    find_ticket message = ticketRightmost message :=
  ticketGo_eq_getLast _

/-- Claim C3 counterexample: on the subject `a #1 b #2` the code extracts `2`,
the digits of the rightmost token, not the digits `1` of the leftmost token. -/
theorem find_ticket_leftmost_cex :
    find_ticket (("a #1 b #2").toList) = some ['2'] ∧
    ticketLeftmost (("a #1 b #2").toList) = some ['1'] ∧
    ¬ (find_ticket (("a #1 b #2").toList) = ticketLeftmost (("a #1 b #2").toList)) := by
  refine ⟨by decide, by decide, by decide⟩

/-- Claim C1: on a subject with no `#<digits>` token the `ticket` display form
is `#None` (the f-string renders the `None` ticket), not the empty string;
with a token it is `#` followed by the digits. -/
theorem ticket_display_none_eval :
    Change.ticket (mkChange false fetch0 (("ab").toList) (("no ref here").toList) [])
      = ("#None").toList ∧
    Change.ticket (mkChange false fetch0 (("ab").toList) (("fix #42 thing").toList) [])
      = ("#42").toList := by
  refine ⟨by decide, by decide⟩

/-- Claim C2: the skip guard of the reporter, `not change.ticket` never fires, because
the ticket display always starts with `#` and is therefore never the empty
string; in particular ticketless changes are not skipped by that check. -/
theorem ticket_skip_guard_never_fires (c : Change) :
    (Change.ticket c).isEmpty = false := by
  rcases hct : c.commitTicket with _ | t <;> simp [Change.ticket, hct]

/-- Claim C4: on an input whose last line is a commit header (here the whole
input is the single line `abc fix`), the parser reads past the end of the
line list and fails instead of terminating the trailing block. -/
theorem find_changes_header_last_error :
    find_changes false fetch0 (("abc fix").toList) = Except.error () := by decide

/-- Claim C6: the parser concatenates the body lines `- [ ] do X` and
`- [x] done Y` without a separator, so the pipeline yields the single todo
`do X- [x] done Y`; on the newline-joined body by itself, `find_todos`
yields `do X` as the claim states. -/
theorem pipeline_todos_concat_eval :
    (find_changes false fetch0 (("aa bb\n- [ ] do X\n- [x] done Y\n/").toList)).toOption.map
        (List.map Change.commitTodos) = some [[("do X- [x] done Y").toList]] ∧
    find_todos (("- [ ] do X\n- [x] done Y").toList) = [("do X").toList] := by
  refine ⟨by decide, by decide⟩

/-- Claim C5 counterexample: on the log text `aa bb`, `/x`, `- [ ] do it`, `/`
the parser of the code ends the first block already at `/x` (a line merely
starting with `/`) and then parses `- [ ] do it` as a second commit header,
while the parser that stops only at a line exactly equal to `/` returns a
single change. -/
theorem find_changes_exact_delim_cex :
    (find_changes false fetch0 (("aa bb\n/x\n- [ ] do it\n/").toList)).toOption.map
        List.length = some 2 ∧
    (find_changes_exact false fetch0 (("aa bb\n/x\n- [ ] do it\n/").toList)).toOption.map
        List.length = some 1 ∧
    ¬ (find_changes false fetch0 (("aa bb\n/x\n- [ ] do it\n/").toList)
        = find_changes_exact false fetch0 (("aa bb\n/x\n- [ ] do it\n/").toList)) := by
  refine ⟨by decide, by decide, by decide⟩

/-- Claim C5 (amended): while accumulating a comment body the parser appends
every line up to, but not including, the first line that starts with `/`
(concatenated without separator); that line is consumed as the delimiter and
scanning resumes after it, and if no such line occurs the block is
terminated at end-of-input. -/
theorem parser_body_stops_at_slash (mk : List Char → List Char → List Char → Change)
    (chash cmsg : List Char) :
    ∀ (rest : List (List Char)) (l acc : List Char),
      stepAll mk (PMode.body chash cmsg acc) (l :: rest) =
        (match (l :: rest).dropWhile (fun x => !startsWithSlash x) with
         | [] =>
           Except.ok
             [mk chash cmsg
                (acc ++ ((l :: rest).takeWhile (fun x => !startsWithSlash x)).flatten)]
         | _ :: rem =>
           Except.map
             (fun cs =>
               mk chash cmsg
                   (acc ++ ((l :: rest).takeWhile (fun x => !startsWithSlash x)).flatten)
                 :: cs)
             (stepAll mk PMode.scan rem)) := by
  intro rest
  induction rest with
  | nil =>
    intro l acc
    by_cases hs : startsWithSlash l = true
    · simp [stepAll, hs, List.dropWhile_cons, List.takeWhile_cons, Except.map]
    · simp only [Bool.not_eq_true] at hs
      simp [stepAll, hs, List.dropWhile_cons, List.takeWhile_cons]
  | cons l2 rest2 ih =>
    intro l acc
    by_cases hs : startsWithSlash l = true
    · simp [stepAll, hs, List.dropWhile_cons, List.takeWhile_cons]
    · simp only [Bool.not_eq_true] at hs
      rw [show stepAll mk (PMode.body chash cmsg acc) (l :: l2 :: rest2)
            = stepAll mk (PMode.body chash cmsg (acc ++ l)) (l2 :: rest2) by
          simp [stepAll, hs]]
      rw [ih l2 (acc ++ l)]
      simp [List.dropWhile_cons, List.takeWhile_cons, hs, List.append_assoc]

theorem upToRBracket_sound : ∀ (r u : List Char), upToRBracket r = some u →
    ∃ t, r = u ++ ']' :: t := by
  intro r
  induction r using upToRBracket.induct with
  | case1 => intro u h; simp [upToRBracket] at h
  | case2 t => intro u h; simp [upToRBracket] at h; exact ⟨t, by simp [h.symm]⟩
  | case3 t => intro u h; simp [upToRBracket] at h
  | case4 c rest h1 h2 ih =>
    intro u h
    rw [upToRBracket] at h
    · rcases Option.map_eq_some'.mp h with ⟨u0, hu0, rfl⟩
      rcases ih u0 hu0 with ⟨t, rfl⟩
      exact ⟨t, rfl⟩
    · exact h1
    · exact h2

theorem afterArrow_sound : ∀ (r u : List Char), afterArrow r = some u →
    u ≠ [] ∧ ∃ t, r = u ++ ']' :: t := by
  intro r u h
  rcases r with _ | ⟨c, rest⟩
  · simp [afterArrow] at h
  · by_cases hc : c = '\n'
    · subst hc; simp [afterArrow] at h
    · rw [afterArrow] at h
      · rcases Option.map_eq_some'.mp h with ⟨u0, hu0, rfl⟩
        rcases upToRBracket_sound rest u0 hu0 with ⟨t, rfl⟩
        exact ⟨by simp, t, rfl⟩
      · exact hc

theorem group1Loop_sound : ∀ (tagRev r tag custom : List Char),
    group1Loop tagRev r = some (tag, some custom) →
    custom ≠ [] ∧ ∃ mid t, tag = tagRev.reverse ++ mid ∧
      r = mid ++ '-' :: '>' :: (custom ++ ']' :: t) := by
  intro tagRev r
  induction tagRev, r using group1Loop.induct with
  | case1 tagRev =>
    intro tag custom h; simp [group1Loop] at h
  | case2 tagRev rest custom0 ha =>
    intro tag custom h
    simp only [group1Loop, ha] at h
    obtain ⟨htag, hcust⟩ := Prod.mk.injEq .. ▸ Option.some.inj h
    obtain rfl := htag
    obtain rfl := Option.some.inj hcust
    obtain ⟨hne, t, hrest⟩ := afterArrow_sound rest custom0 ha
    exact ⟨hne, [], t, by simp, by simp [hrest]⟩
  | case3 tagRev rest ha ih =>
    intro tag custom h
    simp only [group1Loop, ha] at h
    obtain ⟨hne, mid, t, htag, hrest⟩ := ih tag custom h
    refine ⟨hne, '-' :: '>' :: mid, t, ?_, ?_⟩
    · simp [htag, List.reverse_cons, List.append_assoc]
    · simp [hrest]
  | case4 tagRev tail =>
    intro tag custom h; simp [group1Loop] at h
  | case5 tagRev tail =>
    intro tag custom h; simp [group1Loop] at h
  | case6 tagRev c rest hne1 hne2 hne3 ih =>
    intro tag custom h
    rw [group1Loop] at h
    · obtain ⟨hne, mid, t, htag, hrest⟩ := ih tag custom h
      refine ⟨hne, c :: mid, t, ?_, ?_⟩
      · simp [htag, List.reverse_cons, List.append_assoc]
      · simp [hrest]
    · exact hne1
    · exact hne2
    · exact hne3

theorem scanTag_sound : ∀ (r tag custom : List Char),
    scanTag r = some (tag, some custom) →
    tag ≠ [] ∧ custom ≠ [] ∧
      ∃ t, r = tag ++ '-' :: '>' :: (custom ++ ']' :: t) := by
  intro r tag custom h
  rcases r with _ | ⟨c, rest⟩
  · simp [scanTag] at h
  · by_cases hc : c = '\n'
    · subst hc; simp [scanTag] at h
    · rw [scanTag] at h
      · obtain ⟨hne, mid, t, htag, hrest⟩ := group1Loop_sound [c] rest tag custom h
        refine ⟨by simp [htag], hne, t, ?_⟩
        simp [htag, hrest]
      · exact hc

theorem scanBrackets_sound : ∀ (l tag custom : List Char),
    scanBrackets l = some (tag, some custom) →
    tag ≠ [] ∧ custom ≠ [] ∧
      ∃ a t, l = a ++ '[' :: (tag ++ '-' :: '>' :: (custom ++ ']' :: t)) := by
  intro l
  induction l with
  | nil => intro tag custom h; simp [scanBrackets] at h
  | cons c rest ih =>
    intro tag custom h
    rw [scanBrackets] at h
    rcases hr : scanBrackets rest with _ | r0
    · rw [hr] at h
      by_cases hc : c = '['
      · rw [if_pos hc] at h
        obtain ⟨h1, h2, t, hrest⟩ := scanTag_sound rest tag custom h
        exact ⟨h1, h2, [], t, by simp [hc, hrest]⟩
      · rw [if_neg hc] at h; exact absurd h (by simp)
    · rw [hr] at h
      obtain rfl := Option.some.inj h
      obtain ⟨h1, h2, a, t, hrest⟩ := ih tag custom hr
      exact ⟨h1, h2, c :: a, t, by simp [hrest]⟩

/-- Claim C7 (amended): an Aspect's pattern is the default template unless the
regex finds a bracketed directive `[tag->custom]` in the label description
(the rightmost viable `[`, the custom text running to the next `]`), in
which case the pattern is `- ` followed by the custom text verbatim; so a
description holding `[subsystem->- Fixed {ticket}]` yields the pattern
`- - Fixed {ticket}`, while `[subsystem]` yields the default pattern. -/
theorem aspect_pattern_default_or_directive :
    (∀ lbl : LabelInfo,
       (ChangeAspect.ofLabel lbl).pattern = DefaultPattern ∨
       ∃ tag custom, tag ≠ [] ∧ custom ≠ [] ∧
         SubstringOf ('[' :: (tag ++ '-' :: '>' :: (custom ++ [']']))) lbl.description ∧
         (ChangeAspect.ofLabel lbl).pattern = '-' :: ' ' :: custom) ∧
    (ChangeAspect.ofLabel
        { name := [], description := ("x [subsystem->- Fixed {ticket}] y").toList }).pattern
      = ("- - Fixed {ticket}").toList ∧
    (ChangeAspect.ofLabel { name := [], description := ("[subsystem]").toList }).pattern
      = DefaultPattern := by
  refine ⟨?_, by decide, by decide⟩
  intro lbl
  rcases hd : findDirective lbl.description with _ | ⟨tag, oc⟩
  · left; simp [ChangeAspect.ofLabel, hd]
  · rcases oc with _ | custom
    · left; simp [ChangeAspect.ofLabel, hd]
    · right
      have hd' : scanBrackets (lbl.description.takeWhile (fun c => c != '\n'))
          = some (tag, some custom) := hd
      obtain ⟨h1, h2, a, t, heq⟩ := scanBrackets_sound _ tag custom hd'
      refine ⟨tag, custom, h1, h2,
        ⟨a, t ++ lbl.description.dropWhile (fun c => c != '\n'), ?_⟩,
        by simp [ChangeAspect.ofLabel, hd]⟩
      have hsplit := List.takeWhile_append_dropWhile (fun c => c != '\n') lbl.description
      calc lbl.description
          = (a ++ '[' :: (tag ++ '-' :: '>' :: (custom ++ ']' :: t)))
              ++ lbl.description.dropWhile (fun c => c != '\n') := by
            rw [← heq]; exact hsplit.symm
        _ = a ++ ('[' :: (tag ++ '-' :: '>' :: (custom ++ [']'])))
              ++ (t ++ lbl.description.dropWhile (fun c => c != '\n')) := by
            simp [List.append_assoc, List.cons_append]

/-- Claim C7 counterexample: the label description `[subsystem->- Fixed {ticket}]`
yields the pattern `- - Fixed {ticket}` (the code prepends `- ` to the
custom text), not `- Fixed {ticket}` as the example in the claim states. -/
theorem aspect_pattern_example_cex :
    (ChangeAspect.ofLabel
        { name := [], description := ("[subsystem->- Fixed {ticket}]").toList }).pattern
      = ("- - Fixed {ticket}").toList ∧
    ¬ ((ChangeAspect.ofLabel
        { name := [], description := ("[subsystem->- Fixed {ticket}]").toList }).pattern
      = ("- Fixed {ticket}").toList) := by
  refine ⟨by decide, by decide⟩

theorem plus_notin_plusEncode : ∀ v : List Char, '+' ∉ plusEncode v := by
  intro v
  induction v using plusEncode.induct with
  | case1 => simp [plusEncode]
  | case2 rest ih =>
    intro hmem
    rw [plusEncode] at hmem
    simp only [List.mem_cons] at hmem
    rcases hmem with h | h | h | h
    · exact absurd h (by decide)
    · exact absurd h (by decide)
    · exact absurd h (by decide)
    · exact ih h
  | case3 c rest h1 ih =>
    intro hmem
    rw [plusEncode] at hmem
    · simp only [List.mem_cons] at hmem
      rcases hmem with h | h
      · exact h1 h.symm
      · exact ih h
    · exact h1

/-- Claim C8 (amended): the `+` of the version is percent-encoded in the
release-tag segment of the download URL (the base URL holds no raw `+`),
while the installer filename appended to it uses the raw version, so each of
the four bullet URLs still holds a raw `+`. -/
theorem base_url_encodes_plus (v : List Char) (hv : '+' ∈ v) :
    ('+' ∉ base_url v) ∧
    '+' ∈ pyrevit_installer_url v ∧ '+' ∈ pyrevit_admin_installer_url v ∧
    '+' ∈ pyrevit_cli_installer_url v ∧ '+' ∈ pyrevit_cli_admin_installer_url v := by
  refine ⟨?_, ?_, ?_, ?_, ?_⟩
  · intro hmem
    simp only [base_url, List.mem_append] at hmem
    rcases hmem with (h | h) | h
    · exact absurd h (by decide)
    · exact plus_notin_plusEncode v h
    · exact absurd h (by decide)
  · simp [pyrevit_installer_url, PYREVIT_INSTALLER_NAME, List.mem_append, hv]
  · simp [pyrevit_admin_installer_url, PYREVIT_ADMIN_INSTALLER_NAME, List.mem_append, hv]
  · simp [pyrevit_cli_installer_url, PYREVIT_CLI_INSTALLER_NAME, List.mem_append, hv]
  · simp [pyrevit_cli_admin_installer_url, PYREVIT_CLI_ADMIN_INSTALLER_NAME,
      List.mem_append, hv]

/-- Witness for `base_url_encodes_plus` at the concrete version `4.8+9`. -/
theorem base_url_encodes_plus_witness :
    '+' ∈ (("4.8+9").toList) ∧
    (('+' ∉ base_url (("4.8+9").toList)) ∧
     '+' ∈ pyrevit_installer_url (("4.8+9").toList) ∧
     '+' ∈ pyrevit_admin_installer_url (("4.8+9").toList) ∧
     '+' ∈ pyrevit_cli_installer_url (("4.8+9").toList) ∧
     '+' ∈ pyrevit_cli_admin_installer_url (("4.8+9").toList)) :=
  ⟨by decide, base_url_encodes_plus (("4.8+9").toList) (by decide)⟩

/-- Claim C8 counterexample: with version `4.8+9` every one of the four download
URLs holds a raw `+` (the raw version is a substring of the URL via the
installer filename), so not every occurrence of the version in the URL path
is percent-encoded. -/
theorem release_urls_raw_plus_cex :
    '+' ∈ pyrevit_installer_url (("4.8+9").toList) ∧
    '+' ∈ pyrevit_admin_installer_url (("4.8+9").toList) ∧
    '+' ∈ pyrevit_cli_installer_url (("4.8+9").toList) ∧
    '+' ∈ pyrevit_cli_admin_installer_url (("4.8+9").toList) ∧
    SubstringOf (("4.8+9").toList) (pyrevit_installer_url (("4.8+9").toList)) := by
  refine ⟨by decide, by decide, by decide, by decide,
    ⟨(("https://github.com/eirannejad/pyRevit/releases/download/v4.8%2B9/pyRevit_").toList),
     ((".exe").toList), by decide⟩⟩

theorem ticket_isEmpty_false (c : Change) : (Change.ticket c).isEmpty = false := by
  rcases hct : c.commitTicket with _ | t <;> simp [Change.ticket, hct]

theorem groupStep_eq (gs : List (List Char × List Change)) (c : Change) :
    groupStep gs c
      = (Change.subsystems c).foldl (fun h a => addToGroup h a.name c) gs := by
  simp [groupStep, ticket_isEmpty_false c]

theorem addToGroup_adds (gs : List (List Char × List Change)) (n : List Char) (c : Change) :
    ∃ g, g ∈ addToGroup gs n c ∧ g.1 = n ∧ c ∈ g.2 := by
  induction gs with
  | nil => exact ⟨(n, [c]), by simp [addToGroup]⟩
  | cons p rest ih =>
    rcases p with ⟨k, cs⟩
    by_cases hk : k = n
    · exact ⟨(k, cs ++ [c]), by simp [addToGroup, hk], hk, by simp⟩
    · obtain ⟨g, hg, h1, h2⟩ := ih
      exact ⟨g, by simp [addToGroup, hk, List.mem_cons]; right; exact hg, h1, h2⟩

theorem addToGroup_preserve (gs : List (List Char × List Change)) (n : List Char)
    (c : Change) (n0 : List Char) (x : Change) (g : List Char × List Change) :
    g ∈ gs → g.1 = n0 → x ∈ g.2 →
    ∃ g2, g2 ∈ addToGroup gs n c ∧ g2.1 = n0 ∧ x ∈ g2.2 := by
  induction gs with
  | nil => intro hg _ _; cases hg
  | cons p rest ih =>
    intro hg h1 h2
    rcases p with ⟨k, cs⟩
    by_cases hk : k = n
    · rcases List.mem_cons.mp hg with heq | hgr
      · subst heq
        exact ⟨(k, cs ++ [c]), by simp [addToGroup, hk], h1, List.mem_append_left _ h2⟩
      · exact ⟨g, by simp [addToGroup, hk, List.mem_cons]; right; exact hgr, h1, h2⟩
    · rcases List.mem_cons.mp hg with heq | hgr
      · subst heq
        exact ⟨(k, cs), by simp [addToGroup, hk], h1, h2⟩
      · obtain ⟨g2, hg2, h12, h22⟩ := ih hgr h1 h2
        exact ⟨g2, by simp [addToGroup, hk, List.mem_cons]; right; exact hg2, h12, h22⟩

theorem foldG_preserve (c : Change) (n0 : List Char) (x : Change) :
    ∀ (la : List ChangeAspect) (gs : List (List Char × List Change)),
      (∃ g, g ∈ gs ∧ g.1 = n0 ∧ x ∈ g.2) →
      ∃ g2, g2 ∈ List.foldl (fun h a => addToGroup h a.name c) gs la ∧
        g2.1 = n0 ∧ x ∈ g2.2 := by
  intro la
  induction la with
  | nil => intro gs h; simpa using h
  | cons a la2 ih =>
    intro gs h
    obtain ⟨g, hg, h1, h2⟩ := h
    exact ih (addToGroup gs a.name c) (addToGroup_preserve gs a.name c n0 x g hg h1 h2)

theorem foldG_adds (c : Change) :
    ∀ (la : List ChangeAspect) (gs : List (List Char × List Change)) (a : ChangeAspect),
      a ∈ la →
      ∃ g2, g2 ∈ List.foldl (fun h a2 => addToGroup h a2.name c) gs la ∧
        g2.1 = a.name ∧ c ∈ g2.2 := by
  intro la
  induction la with
  | nil => intro gs a ha; cases ha
  | cons a0 la2 ih =>
    intro gs a ha
    rcases List.mem_cons.mp ha with rfl | ha2
    · exact foldG_preserve c a.name c la2 (addToGroup gs a.name c)
        (addToGroup_adds gs a.name c)
    · exact ih (addToGroup gs a0.name c) a ha2

theorem foldSteps_preserve (n0 : List Char) (x : Change) :
    ∀ (changes : List Change) (gs : List (List Char × List Change)),
      (∃ g, g ∈ gs ∧ g.1 = n0 ∧ x ∈ g.2) →
      ∃ g2, g2 ∈ List.foldl groupStep gs changes ∧ g2.1 = n0 ∧ x ∈ g2.2 := by
  intro changes
  induction changes with
  | nil => intro gs h; simpa using h
  | cons c0 rest ih =>
    intro gs h
    refine ih (groupStep gs c0) ?_
    rw [groupStep_eq]
    obtain ⟨g, hg, h1, h2⟩ := h
    exact foldG_preserve c0 n0 x (Change.subsystems c0) gs ⟨g, hg, h1, h2⟩

theorem foldSteps_adds (c : Change) (a : ChangeAspect) (ha : a ∈ Change.subsystems c) :
    ∀ (changes : List Change) (gs : List (List Char × List Change)),
      c ∈ changes →
      ∃ g, g ∈ List.foldl groupStep gs changes ∧ g.1 = a.name ∧ c ∈ g.2 := by
  intro changes
  induction changes with
  | nil => intro gs h; cases h
  | cons c0 rest ih =>
    intro gs hc
    rcases List.mem_cons.mp hc with rfl | hc2
    · refine foldSteps_preserve a.name c rest (groupStep gs c) ?_
      rw [groupStep_eq]
      exact foldG_adds c (Change.subsystems c) gs a ha
    · exact ih (groupStep gs c0) hc2

/-- Claim C9: a ticketed change carrying subsystem labels named `A` and `B`
lands in both groups of the grouping map, and its rendering is printed in
the printed lists of both groups in the Changes section. -/
theorem grouped_under_both_subsystems (changes : List Change) (c : Change) (A B : List Char)
    (hmem : c ∈ changes) (hticket : c.commitTicket.isSome = true) (hAB : A ≠ B)
    (hA : ∃ a, a ∈ Change.subsystems c ∧ a.name = A)
    (hB : ∃ b, b ∈ Change.subsystems c ∧ b.name = B) :
    (∃ g, g ∈ changes_by_subsystem changes ∧ g.1 = A ∧ c ∈ g.2) ∧
    (∃ g, g ∈ changes_by_subsystem changes ∧ g.1 = B ∧ c ∈ g.2) ∧
    Change.render c ∈ groupRenderOf changes A ∧
    Change.render c ∈ groupRenderOf changes B ∧
    Change.render c ∈ changesSection changes := by
  obtain ⟨a, ha, rfl⟩ := hA
  obtain ⟨b, hb, rfl⟩ := hB
  have hGA := foldSteps_adds c a ha changes [] hmem
  have hGB := foldSteps_adds c b hb changes [] hmem
  have hrender : ∀ n : List Char,
      (∃ g, g ∈ changes_by_subsystem changes ∧ g.1 = n ∧ c ∈ g.2) →
      Change.render c ∈ groupRenderOf changes n := by
    intro n ⟨g, hg, h1, h2⟩
    unfold groupRenderOf
    rw [List.mem_flatten]
    refine ⟨g.2.map Change.render, List.mem_map_of_mem _ ?_, List.mem_map_of_mem _ h2⟩
    exact List.mem_filter.mpr ⟨hg, by simp [h1]⟩
  refine ⟨hGA, hGB, hrender _ hGA, hrender _ hGB, ?_⟩
  obtain ⟨g, hg, h1, h2⟩ := hGA
  unfold changesSection
  rw [List.mem_flatten]
  exact ⟨(("### ").toList ++ g.1) :: g.2.map Change.render,
    List.mem_map_of_mem _ hg, List.mem_cons_of_mem _ (List.mem_map_of_mem _ h2)⟩

/-- A concrete change carrying the two subsystem labels `Core` and `UI`. -/
def changeW : Change :=
  { commitHash := ("aa").toList
    commitTicket := some ['7']
    commitTodos := []
    ticketdata := some
      { title := ("T").toList
        url := ("U").toList
        labels := [{ name := ("Core").toList, description := ("[subsystem]").toList },
                   { name := ("UI").toList, description := ("x [subsystem] y").toList }] } }

/-- Witness for `grouped_under_both_subsystems` on the one-change list
`[changeW]` with subsystem names `Core` and `UI`. -/
theorem grouped_under_both_subsystems_witness :
    (∃ g, g ∈ changes_by_subsystem [changeW] ∧ g.1 = ("Core").toList ∧ changeW ∈ g.2) ∧
    (∃ g, g ∈ changes_by_subsystem [changeW] ∧ g.1 = ("UI").toList ∧ changeW ∈ g.2) ∧
    Change.render changeW ∈ groupRenderOf [changeW] (("Core").toList) ∧
    Change.render changeW ∈ groupRenderOf [changeW] (("UI").toList) ∧
    Change.render changeW ∈ changesSection [changeW] :=
  grouped_under_both_subsystems [changeW] changeW (("Core").toList) (("UI").toList)
    (by decide) (by decide) (by decide) (by decide) (by decide)

theorem mem_addToGroup_split (gs : List (List Char × List Change)) (n : List Char)
    (c : Change) (g : List Char × List Change) (x : Change) :
    g ∈ addToGroup gs n c → x ∈ g.2 → x = c ∨ ∃ g2, g2 ∈ gs ∧ x ∈ g2.2 := by
  induction gs with
  | nil =>
    intro hg hx
    simp [addToGroup] at hg
    subst hg
    left
    simpa using hx
  | cons p rest ih =>
    rcases p with ⟨k, cs⟩
    intro hg hx
    by_cases hk : k = n
    · simp only [addToGroup, if_pos hk, List.mem_cons] at hg
      rcases hg with rfl | hgr
      · rcases List.mem_append.mp hx with h | h
        · right; exact ⟨(k, cs), by simp, h⟩
        · left; simpa using h
      · right; exact ⟨g, by simp [hgr], hx⟩
    · simp only [addToGroup, if_neg hk, List.mem_cons] at hg
      rcases hg with rfl | hgr
      · right; exact ⟨(k, cs), by simp, hx⟩
      · rcases ih hgr hx with h | ⟨g2, hg2, hx2⟩
        · left; exact h
        · right; exact ⟨g2, by simp [hg2], hx2⟩

theorem mem_foldG_split (c : Change) :
    ∀ (la : List ChangeAspect) (gs : List (List Char × List Change))
      (g : List Char × List Change) (x : Change),
      g ∈ List.foldl (fun h a => addToGroup h a.name c) gs la → x ∈ g.2 →
      (x = c ∧ la ≠ []) ∨ ∃ g2, g2 ∈ gs ∧ x ∈ g2.2 := by
  intro la
  induction la with
  | nil =>
    intro gs g x hg hx
    right; exact ⟨g, hg, hx⟩
  | cons a la2 ih =>
    intro gs g x hg hx
    rcases ih (addToGroup gs a.name c) g x hg hx with ⟨h, _⟩ | ⟨g2, hg2, hx2⟩
    · left; exact ⟨h, by simp⟩
    · rcases mem_addToGroup_split gs a.name c g2 x hg2 hx2 with h | h
      · left; exact ⟨h, by simp⟩
      · right; exact h

theorem mem_foldSteps_split :
    ∀ (changes : List Change) (gs : List (List Char × List Change))
      (g : List Char × List Change) (x : Change),
      g ∈ List.foldl groupStep gs changes → x ∈ g.2 →
      (∃ g2, g2 ∈ gs ∧ x ∈ g2.2) ∨ (x ∈ changes ∧ Change.subsystems x ≠ []) := by
  intro changes
  induction changes with
  | nil =>
    intro gs g x hg hx
    left; exact ⟨g, hg, hx⟩
  | cons c0 rest ih =>
    intro gs g x hg hx
    rcases ih (groupStep gs c0) g x hg hx with ⟨g2, hg2, hx2⟩ | ⟨hxm, hs⟩
    · rw [groupStep_eq] at hg2
      rcases mem_foldG_split c0 (Change.subsystems c0) gs g2 x hg2 hx2 with ⟨rfl, hne⟩ | h
      · right; exact ⟨List.mem_cons_self _ _, hne⟩
      · left; exact h
    · right; exact ⟨List.mem_cons_of_mem _ hxm, hs⟩

/-- Claim C10: a change constructed with fetching disabled or whose subject has
no ticket token carries no metadata: its subsystem and class lists are
empty, it is neither highlighted nor prioritized, it is never among the
changes of the Highlights section, and it is never a member of any group of
the grouping map. -/
theorem unfetched_change_invisible (fi : Bool) (getTicket : List Char → TicketData)
    (chash msg cmt : List Char) (hyp : fi = false ∨ find_ticket msg = none) :
    Change.subsystems (mkChange fi getTicket chash msg cmt) = [] ∧
    Change.classes (mkChange fi getTicket chash msg cmt) = [] ∧
    Change.highlighted (mkChange fi getTicket chash msg cmt) = false ∧
    Change.priority (mkChange fi getTicket chash msg cmt) = false ∧
    (∀ changes : List Change,
       mkChange fi getTicket chash msg cmt ∉ highlightChanges changes) ∧
    (∀ (changes : List Change) (g : List Char × List Change),
       g ∈ changes_by_subsystem changes → mkChange fi getTicket chash msg cmt ∉ g.2) := by
  have hnone : (mkChange fi getTicket chash msg cmt).ticketdata = none := by
    rcases hyp with rfl | hn
    · simp [mkChange]
    · cases fi <;> simp [mkChange, hn]
  have hsub : Change.subsystems (mkChange fi getTicket chash msg cmt) = [] := by
    simp [Change.subsystems, hnone]
  have hhi : Change.highlighted (mkChange fi getTicket chash msg cmt) = false := by
    simp [Change.highlighted, hnone]
  refine ⟨hsub, by simp [Change.classes, hnone], hhi, by simp [Change.priority, hnone],
    ?_, ?_⟩
  · intro changes hmem
    have hp := (List.mem_filter.mp hmem).2
    rw [hhi] at hp
    cases hp
  · intro changes g hg hx
    rcases mem_foldSteps_split changes [] g _ hg hx with ⟨g2, hg2, _⟩ | ⟨_, hne⟩
    · simp at hg2
    · exact hne hsub

/-- Witness for `unfetched_change_invisible` at a concrete ticketless
change: fetching disabled, subject `no ref here`. -/
theorem unfetched_change_invisible_witness :
    (false = false ∨ find_ticket (("no ref here").toList) = none) ∧
    Change.subsystems (mkChange false fetch0 (("ab").toList) (("no ref here").toList) []) = [] ∧
    (mkChange false fetch0 (("ab").toList) (("no ref here").toList) []) ∉
      highlightChanges [mkChange false fetch0 (("ab").toList) (("no ref here").toList) []] :=
  ⟨Or.inl rfl,
   (unfetched_change_invisible false fetch0 (("ab").toList) (("no ref here").toList) []
     (Or.inl rfl)).1,
   (unfetched_change_invisible false fetch0 (("ab").toList) (("no ref here").toList) []
     (Or.inl rfl)).2.2.2.2.1 _⟩
